import Mathlib

/-!
Verification of the FIFO capital-gains engine of
`aus-crypto-capital-gains-calculator`.

A shallow embedding of the core: the transaction data model (`types/src/lib.rs`) and the FIFO calculator
(`calculator/src/fifo.rs`).

Modelling conventions:
* Rust `f64` amounts and rates are embedded as exact rationals (`ℚ`).
* `panic!` branches of `Transaction::subtract_sell` are embedded as `none`.
* `anyhow::bail!` is embedded as `Except.error` with an explicit error type.
* The unbounded `while !sell.is_exhausted()` loop is embedded with an
  explicit iteration bound (`fuel`); the bound used by the calculator is
  proved sufficient (`processSell` never returns `CalcError.outOfFuel`).
* Rust's stable `sort_by` on `unixtime` is embedded as `List.insertionSort`,
  which is a stable sort; sortedness, permutation and stability of the
  embedded sort are proved where the claims depend on them.
* The `HashMap<Currency, f64>` result is embedded as a partial function
  `Currency → Option ℚ`, built by the same insertion loop as the source.
-/

namespace AusCgt

/-- Mirror of `pub struct Currency(pub String)` from `types/src/lib.rs`. -/
structure Currency where
  name : String
deriving DecidableEq

/-- Mirror of the Rust enum with cases `Buy` and `Sell` from `types/src/lib.rs`. -/
inductive TransactionType where
  | Buy
  | Sell
deriving DecidableEq

/-- Mirror of `pub struct Transaction` from `types/src/lib.rs`:
amount, currency, rate (AUD per unit), buy/sell type, unix timestamp. -/
structure Transaction where
  amount : ℚ
  currency : Currency
  rate : ℚ
  transaction_type : TransactionType
  unixtime : ℕ
deriving DecidableEq

/-- Embedding of `Transaction::is_exhausted`: `self.amount < 0.00001`. -/
def Transaction.is_exhausted (t : Transaction) : Bool :=
  decide (t.amount < 1 / 100000)

/-- Embedding of `Transaction::subtract_sell` from `types/src/lib.rs`.

`self` is expected to be a buy and `other` a sell of the same currency;
the two `panic!` branches of the source are embedded as `none`.
On success returns the capital gain of the match together with the
updated buy and sell transactions (the source mutates both in place). -/
def Transaction.subtract_sell (self other : Transaction) :
    Option (ℚ × Transaction × Transaction) :=
  if self.transaction_type = TransactionType.Buy ∧
      other.transaction_type = TransactionType.Sell then
    if self.currency = other.currency then
      let delta := min self.amount other.amount
      let remaining_buy := self.amount - other.amount
      let buy_in_aud := delta * self.rate
      let sell_in_aud := delta * other.rate
      if remaining_buy > 0 then
        some (sell_in_aud - buy_in_aud,
          { self with amount := self.amount - other.amount },
          { other with amount := 0 })
      else
        some (sell_in_aud - buy_in_aud,
          { self with amount := 0 },
          { other with amount := other.amount - self.amount })
    else
      none
  else
    none

/-- Failure modes of the embedded calculator.
`insufficientLots` embeds the `bail!` of
`calculate_capital_gains_single_currency`; `invariantViolation` embeds the
`panic!` branches of `subtract_sell`; `outOfFuel` marks exhaustion of the
explicit iteration bound of the embedded `while` loop (proved unreachable). -/
inductive CalcError where
  | insufficientLots (sell : Transaction)
  | invariantViolation (buy sell : Transaction)
  | outOfFuel
deriving DecidableEq

/-- The `while !sell.is_exhausted()` loop of
`FifoCalculator::calculate_capital_gains_single_currency`, embedded with an
explicit iteration bound `fuel`. Returns the capital gain contributed by
this sell together with the remaining lot queue. -/
def processSell : ℕ → List Transaction → Transaction →
    Except CalcError (ℚ × List Transaction)
  | 0, _, _ => .error .outOfFuel
  | fuel + 1, lots, sell =>
    if sell.is_exhausted then
      .ok (0, lots)
    else
      match lots with
      | [] => .error (.insufficientLots sell)
      | lot :: rest =>
        match lot.subtract_sell sell with
        | none => .error (.invariantViolation lot sell)
        | some (capital_gain_delta, lot', sell') =>
          let lots' := if lot'.is_exhausted then rest else lot' :: rest
          match processSell fuel lots' sell' with
          | .ok (g, final_lots) => .ok (capital_gain_delta + g, final_lots)
          | .error e => .error e

/-- The transaction loop of
`FifoCalculator::calculate_capital_gains_single_currency`: buys are pushed
at the back of the lot queue, sells are matched against the queue head via
`processSell`, accumulating `capital_gain`. -/
def fifoFold : List Transaction → List Transaction → ℚ → Except CalcError ℚ
  | [], _, capital_gain => .ok capital_gain
  | t :: rest, lots, capital_gain =>
    match t.transaction_type with
    | .Buy => fifoFold rest (lots ++ [t]) capital_gain
    | .Sell =>
      match processSell (lots.length + 1) lots t with
      | .ok (g, lots') => fifoFold rest lots' (capital_gain + g)
      | .error e => .error e

/-- Embedding of `FifoCalculator::calculate_capital_gains_single_currency`. -/
def calculate_capital_gains_single_currency (transactions : List Transaction) :
    Except CalcError ℚ :=
  fifoFold transactions [] 0

/-- The comparison used by the source's
`transactions.sort_by(|a, b| a.unixtime.partial_cmp(&b.unixtime).unwrap())`. -/
def timeLE (a b : Transaction) : Prop :=
  a.unixtime ≤ b.unixtime

instance : DecidableRel timeLE := fun a b => Nat.decLe a.unixtime b.unixtime

instance : IsTotal Transaction timeLE :=
  ⟨fun a b => Nat.le_total a.unixtime b.unixtime⟩

instance : IsTrans Transaction timeLE :=
  ⟨fun _ _ _ h h' => Nat.le_trans h h'⟩

/-- The per-currency loop of `FifoCalculator::calculate_capital_gains`:
for each currency in `currencies` (taken from the sorted transaction list,
duplicates included, as in the source), filter the sorted transactions to
that currency, run the single-currency calculator and insert the result
into the map (embedded as a partial function). -/
def aggregate : List Currency → List Transaction → (Currency → Option ℚ) →
    Except CalcError (Currency → Option ℚ)
  | [], _, capital_gains => .ok capital_gains
  | c :: cs, sorted, capital_gains =>
    match calculate_capital_gains_single_currency
        (sorted.filter fun t => decide (t.currency = c)) with
    | .ok g =>
      aggregate cs sorted (fun c' => if c' = c then some g else capital_gains c')
    | .error e => .error e

/-- Embedding of `FifoCalculator::calculate_capital_gains` (the `Calculator` impl):
stable-sort all transactions by `unixtime`, then compute the per-currency
gains for every currency occurring in the input. -/
def calculate_capital_gains (transactions : List Transaction) :
    Except CalcError (Currency → Option ℚ) :=
  let sorted := transactions.insertionSort timeLE
  aggregate (sorted.map fun t => t.currency) sorted (fun _ => none)

theorem subtract_sell_some_spec {b s : Transaction} {d : ℚ} {b' s' : Transaction}
    (h : b.subtract_sell s = some (d, b', s')) :
    b.transaction_type = TransactionType.Buy ∧
    s.transaction_type = TransactionType.Sell ∧
    b.currency = s.currency ∧
    d = min b.amount s.amount * (s.rate - b.rate) ∧
    b'.amount = b.amount - min b.amount s.amount ∧
    s'.amount = s.amount - min b.amount s.amount ∧
    b'.currency = b.currency ∧ b'.rate = b.rate ∧
    b'.transaction_type = b.transaction_type ∧ b'.unixtime = b.unixtime ∧
    s'.currency = s.currency ∧ s'.rate = s.rate ∧
    s'.transaction_type = s.transaction_type ∧ s'.unixtime = s.unixtime ∧
    (b'.amount = 0 ∨ s'.amount = 0) := by
  by_cases h1 : b.transaction_type = TransactionType.Buy ∧
      s.transaction_type = TransactionType.Sell
  · by_cases h2 : b.currency = s.currency
    · by_cases h3 : b.amount - s.amount > 0
      · simp only [Transaction.subtract_sell, h1.1, h1.2, h2, h3, and_self, if_true,
          Option.some.injEq, Prod.mk.injEq] at h
        obtain ⟨hd, hb', hs'⟩ := h
        subst hd
        subst hb'
        subst hs'
        have hsle : s.amount ≤ b.amount := by linarith
        refine ⟨h1.1, h1.2, h2, by ring, ?_, ?_, ?_, ?_, ?_, ?_, ?_, ?_, ?_, ?_, ?_⟩ <;>
          simp [min_eq_right hsle, h1.1, h1.2, h2]
      · simp only [Transaction.subtract_sell, h1.1, h1.2, h2, h3, and_self, if_true,
          if_false, Option.some.injEq, Prod.mk.injEq] at h
        obtain ⟨hd, hb', hs'⟩ := h
        subst hd
        subst hb'
        subst hs'
        have hble : b.amount ≤ s.amount := by linarith
        refine ⟨h1.1, h1.2, h2, by ring, ?_, ?_, ?_, ?_, ?_, ?_, ?_, ?_, ?_, ?_, ?_⟩ <;>
          simp [min_eq_left hble, h1.1, h1.2, h2]
    · simp [Transaction.subtract_sell, h1.1, h1.2, h2] at h
  · simp [Transaction.subtract_sell, h1] at h

/-- On a buy and a sell of the same currency, `subtract_sell` succeeds
(the guard conditions of the source never fire). -/
theorem subtract_sell_isSome {b s : Transaction}
    (hb : b.transaction_type = TransactionType.Buy)
    (hs : s.transaction_type = TransactionType.Sell)
    (hc : b.currency = s.currency) :
    ∃ d b' s', b.subtract_sell s = some (d, b', s') := by
  by_cases h3 : b.amount - s.amount > 0
  · refine ⟨min b.amount s.amount * s.rate - min b.amount s.amount * b.rate,
      { b with amount := b.amount - s.amount }, { s with amount := 0 }, ?_⟩
    simp [Transaction.subtract_sell, hb, hs, hc, h3]
  · refine ⟨min b.amount s.amount * s.rate - min b.amount s.amount * b.rate,
      { b with amount := 0 }, { s with amount := s.amount - b.amount }, ?_⟩
    simp [Transaction.subtract_sell, hb, hs, hc, h3]

theorem is_exhausted_iff {t : Transaction} :
    t.is_exhausted = true ↔ t.amount < 1 / 100000 := by
  simp [Transaction.is_exhausted]

theorem not_is_exhausted_iff {t : Transaction} :
    ¬ t.is_exhausted = true ↔ 1 / 100000 ≤ t.amount := by
  simp [Transaction.is_exhausted, not_lt]

/-- Main invariant of the sell-matching loop: on a queue of buy lots of the
sell's currency, with at least `lots.length + 1` iterations of fuel, the
loop either returns a gain together with a queue that is again all buy lots
of that currency, or fails with `insufficientLots` carrying a sell that
still has at least `ε = 1e-5` unmatched. In particular it never runs out of
fuel and never hits the `panic!` branches of `subtract_sell`. -/
theorem processSell_spec (c : Currency) :
    ∀ (fuel : ℕ) (lots : List Transaction) (sell : Transaction),
      (∀ l ∈ lots, l.transaction_type = TransactionType.Buy ∧ l.currency = c) →
      sell.transaction_type = TransactionType.Sell → sell.currency = c →
      lots.length + 1 ≤ fuel →
      (∃ g lots', processSell fuel lots sell = .ok (g, lots') ∧
          ∀ l ∈ lots', l.transaction_type = TransactionType.Buy ∧ l.currency = c) ∨
      (∃ s, processSell fuel lots sell = .error (.insufficientLots s) ∧
          1 / 100000 ≤ s.amount) := by
  intro fuel
  induction fuel with
  | zero => intro lots sell _ _ _ hf; omega
  | succ f ih =>
    intro lots sell hlots hsell hcur hf
    by_cases hex : sell.is_exhausted = true
    · exact Or.inl ⟨0, lots, by simp [processSell, hex], hlots⟩
    · cases lots with
      | nil =>
        exact Or.inr ⟨sell, by simp [processSell, hex], not_is_exhausted_iff.mp hex⟩
      | cons lot rest =>
        have hlot := hlots lot (List.mem_cons_self lot rest)
        have hrest : ∀ l ∈ rest, l.transaction_type = TransactionType.Buy ∧ l.currency = c :=
          fun l hl => hlots l (List.mem_cons_of_mem lot hl)
        obtain ⟨d, lot', sell', hsub⟩ :=
          subtract_sell_isSome hlot.1 hsell (hlot.2.trans hcur.symm)
        obtain ⟨hbty, hsty, hbc, hd, hba, hsa, hb'c, hb'r, hb'ty, hb'u,
          hs'c, hs'r, hs'ty, hs'u, hzero⟩ := subtract_sell_some_spec hsub
        have hsell' : sell'.transaction_type = TransactionType.Sell := hs'ty.trans hsell
        have hcur' : sell'.currency = c := hs'c.trans hcur
        by_cases hexl : lot'.is_exhausted = true
        · have hlen : rest.length + 1 ≤ f := by
            simp only [List.length_cons] at hf; omega
          rcases ih rest sell' hrest hsell' hcur' hlen with
            ⟨g, lots', hrun, hgood⟩ | ⟨s0, hrun, hs0⟩
          · exact Or.inl ⟨d + g, lots', by simp [processSell, hex, hsub, hexl, hrun], hgood⟩
          · exact Or.inr ⟨s0, by simp [processSell, hex, hsub, hexl, hrun], hs0⟩
        · have hlz : lot'.amount ≠ 0 := by
            have := not_is_exhausted_iff.mp hexl
            intro h0
            rw [h0] at this
            norm_num at this
          have hs0 : sell'.amount = 0 := hzero.resolve_left hlz
          have hexs : sell'.is_exhausted = true := by
            rw [is_exhausted_iff, hs0]
            norm_num
          obtain ⟨f', rfl⟩ : ∃ f', f = f' + 1 := by
            cases f with
            | zero => simp only [List.length_cons] at hf; omega
            | succ n => exact ⟨n, rfl⟩
          refine Or.inl ⟨d + 0, lot' :: rest, ?_, ?_⟩
          · simp [processSell, hex, hsub, hexl, hexs]
          · intro l hl
            rcases List.mem_cons.mp hl with rfl | hl
            · exact ⟨hb'ty.trans hlot.1, hb'c.trans hlot.2⟩
            · exact hrest l hl

/-- The sell-matching loop preserves non-negativity of the lot amounts. -/
theorem processSell_nonneg :
    ∀ (fuel : ℕ) (lots : List Transaction) (sell : Transaction) (g : ℚ)
      (lots' : List Transaction),
      (∀ l ∈ lots, 0 ≤ l.amount) → 0 ≤ sell.amount →
      processSell fuel lots sell = .ok (g, lots') →
      ∀ l ∈ lots', 0 ≤ l.amount := by
  intro fuel
  induction fuel with
  | zero => intro lots sell g lots' _ _ h; simp [processSell] at h
  | succ f ih =>
    intro lots sell g lots' hlots hsell h
    by_cases hex : sell.is_exhausted = true
    · simp [processSell, hex] at h
      rw [← h.2]
      exact hlots
    · cases lots with
      | nil => simp [processSell, hex] at h
      | cons lot rest =>
        simp only [processSell, hex, if_false, Bool.false_eq_true] at h
        rcases hsub : lot.subtract_sell sell with _ | ⟨⟨d, lot', sell'⟩⟩
        · simp only [hsub] at h
          exact Except.noConfusion h
        · simp only [hsub] at h
          obtain ⟨hbty, hsty, hbc, hd, hba, hsa, hb'c, hb'r, hb'ty, hb'u,
            hs'c, hs'r, hs'ty, hs'u, hzero⟩ := subtract_sell_some_spec hsub
          have hlot := hlots lot (List.mem_cons_self lot rest)
          have hrest : ∀ l ∈ rest, 0 ≤ l.amount :=
            fun l hl => hlots l (List.mem_cons_of_mem lot hl)
          have hb'nn : 0 ≤ lot'.amount := by
            rw [hba]
            have := min_le_left lot.amount sell.amount
            linarith
          have hs'nn : 0 ≤ sell'.amount := by
            rw [hsa]
            have := min_le_right lot.amount sell.amount
            linarith
          have hlots' : ∀ l ∈ (if lot'.is_exhausted = true then rest else lot' :: rest),
              0 ≤ l.amount := by
            split_ifs
            · exact hrest
            · intro l hl
              rcases List.mem_cons.mp hl with rfl | hl
              · exact hb'nn
              · exact hrest l hl
          rcases hrun : processSell f (if lot'.is_exhausted = true then rest
              else lot' :: rest) sell' with e | ⟨g0, lots0⟩
          · simp only [hrun] at h
            exact Except.noConfusion h
          · simp only [hrun, Except.ok.injEq, Prod.mk.injEq] at h
            rw [← h.2]
            exact ih _ sell' g0 lots0 hlots' hs'nn hrun

/-- The transaction loop, on a single-currency list and a well-formed lot
queue, either returns a gain or fails with `insufficientLots` carrying a
sell with at least `ε` unmatched. -/
theorem fifoFold_spec (c : Currency) :
    ∀ (txs lots : List Transaction) (acc : ℚ),
      (∀ t ∈ txs, t.currency = c) →
      (∀ l ∈ lots, l.transaction_type = TransactionType.Buy ∧ l.currency = c) →
      (∃ r, fifoFold txs lots acc = .ok r) ∨
      (∃ s, fifoFold txs lots acc = .error (.insufficientLots s) ∧
        1 / 100000 ≤ s.amount) := by
  intro txs
  induction txs with
  | nil => intro lots acc _ _; exact Or.inl ⟨acc, rfl⟩
  | cons t rest ih =>
    intro lots acc htxs hlots
    have ht := htxs t (List.mem_cons_self t rest)
    have hrest : ∀ t' ∈ rest, t'.currency = c :=
      fun t' h => htxs t' (List.mem_cons_of_mem t h)
    rcases hty : t.transaction_type with _ | _
    · have hlots' : ∀ l ∈ lots ++ [t],
          l.transaction_type = TransactionType.Buy ∧ l.currency = c := by
        intro l hl
        rcases List.mem_append.mp hl with hl | hl
        · exact hlots l hl
        · rcases List.mem_singleton.mp hl with rfl
          exact ⟨hty, ht⟩
      have := ih (lots ++ [t]) acc hrest hlots'
      simpa [fifoFold, hty] using this
    · rcases processSell_spec c (lots.length + 1) lots t hlots hty ht (le_refl _) with
        ⟨g, lots', hrun, hgood⟩ | ⟨s, hrun, hs⟩
      · have := ih lots' (acc + g) hrest hgood
        simpa [fifoFold, hty, hrun] using this
      · exact Or.inr ⟨s, by simp [fifoFold, hty, hrun], hs⟩

/-- On a list of transactions that all share one currency,
`calculate_capital_gains_single_currency` terminates with either a gain or an
`insufficientLots` failure (never a panic, never fuel exhaustion). -/
theorem calculate_single_spec (c : Currency) (txs : List Transaction)
    (h : ∀ t ∈ txs, t.currency = c) :
    (∃ r, calculate_capital_gains_single_currency txs = .ok r) ∨
    (∃ s, calculate_capital_gains_single_currency txs = .error (.insufficientLots s) ∧
      1 / 100000 ≤ s.amount) :=
  fifoFold_spec c txs [] 0 h (by simp)

/-- Characterization of a successful `aggregate` run: every listed currency
is mapped to the gain its filtered transaction list computes, and unlisted
currencies keep their initial value. -/
theorem aggregate_ok_spec :
    ∀ (cs : List Currency) (sorted : List Transaction) (acc : Currency → Option ℚ)
      (m : Currency → Option ℚ),
      aggregate cs sorted acc = .ok m →
      ∀ c : Currency,
        (c ∈ cs → ∃ g, calculate_capital_gains_single_currency
            (sorted.filter fun t => decide (t.currency = c)) = .ok g ∧ m c = some g) ∧
        (c ∉ cs → m c = acc c) := by
  intro cs
  induction cs with
  | nil =>
    intro sorted acc m h c
    simp only [aggregate, Except.ok.injEq] at h
    exact ⟨fun hc => absurd hc (List.not_mem_nil c), fun _ => h ▸ rfl⟩
  | cons c0 cs ih =>
    intro sorted acc m h c
    rcases hrun : calculate_capital_gains_single_currency
        (sorted.filter fun t => decide (t.currency = c0)) with e | g0
    · simp only [aggregate, hrun] at h
      exact Except.noConfusion h
    · simp only [aggregate, hrun] at h
      have IH := ih sorted _ m h
      constructor
      · intro hc
        rcases List.mem_cons.mp hc with rfl | hc
        · by_cases hcs : c ∈ cs
          · exact (IH c).1 hcs
          · have hm := (IH c).2 hcs
            exact ⟨g0, hrun, by rw [hm]; simp⟩
        · exact (IH c).1 hc
      · intro hc
        have hne : c ≠ c0 := fun h' => hc (h' ▸ List.mem_cons_self c0 cs)
        have hm := (IH c).2 fun h' => hc (List.mem_cons_of_mem c0 h')
        rw [hm]
        simp [hne]

/-- Any failure of `aggregate` is a failure of the single-currency
calculator on one of the listed currencies. -/
theorem aggregate_error_spec :
    ∀ (cs : List Currency) (sorted : List Transaction) (acc : Currency → Option ℚ)
      (e : CalcError),
      aggregate cs sorted acc = .error e →
      ∃ c ∈ cs, calculate_capital_gains_single_currency
        (sorted.filter fun t => decide (t.currency = c)) = .error e := by
  intro cs
  induction cs with
  | nil =>
    intro sorted acc e h
    exact Except.noConfusion h
  | cons c0 cs ih =>
    intro sorted acc e h
    rcases hrun : calculate_capital_gains_single_currency
        (sorted.filter fun t => decide (t.currency = c0)) with e0 | g0
    · simp only [aggregate, hrun, Except.error.injEq] at h
      exact ⟨c0, List.mem_cons_self c0 cs, h ▸ hrun⟩
    · simp only [aggregate, hrun] at h
      obtain ⟨c, hc, h'⟩ := ih sorted _ e h
      exact ⟨c, List.mem_cons_of_mem c0 hc, h'⟩

/-- Conversely, if some listed currency's calculator fails, `aggregate`
fails. -/
theorem aggregate_error_exists :
    ∀ (cs : List Currency) (sorted : List Transaction) (acc : Currency → Option ℚ)
      (c : Currency), c ∈ cs →
      (∃ e, calculate_capital_gains_single_currency
        (sorted.filter fun t => decide (t.currency = c)) = .error e) →
      ∃ e', aggregate cs sorted acc = .error e' := by
  intro cs
  induction cs with
  | nil => intro sorted acc c hc _; exact absurd hc (List.not_mem_nil c)
  | cons c0 cs ih =>
    intro sorted acc c hc he
    rcases hrun : calculate_capital_gains_single_currency
        (sorted.filter fun t => decide (t.currency = c0)) with e0 | g0
    · exact ⟨e0, by simp [aggregate, hrun]⟩
    · rcases List.mem_cons.mp hc with rfl | hc
      · obtain ⟨e, he⟩ := he
        rw [hrun] at he
        exact Except.noConfusion he
      · obtain ⟨e', h'⟩ := ih sorted
          (fun c' => if c' = c0 then some g0 else acc c') c hc he
        exact ⟨e', by simp [aggregate, hrun, h']⟩

theorem orderedInsert_of_forall_le {a : Transaction} {l : List Transaction}
    (h : ∀ x ∈ l, timeLE a x) : l.orderedInsert timeLE a = a :: l := by
  cases l with
  | nil => rfl
  | cons b t => exact List.orderedInsert_of_le timeLE t (h b (List.mem_cons_self b t))

/-- Filtering commutes with `orderedInsert` into a sorted list. -/
theorem filter_orderedInsert (p : Transaction → Bool) (a : Transaction) :
    ∀ l : List Transaction, l.Sorted timeLE →
      (l.orderedInsert timeLE a).filter p =
        if p a then (l.filter p).orderedInsert timeLE a else l.filter p := by
  intro l
  induction l with
  | nil =>
    intro _
    by_cases hpa : p a <;> simp [List.orderedInsert, hpa]
  | cons b t ih =>
    intro hl
    obtain ⟨hbt, ht⟩ := List.sorted_cons.mp hl
    by_cases hab : timeLE a b
    · rw [List.orderedInsert_of_le timeLE t hab]
      by_cases hpa : p a
      · have hins : ((b :: t).filter p).orderedInsert timeLE a =
            a :: (b :: t).filter p := by
          apply orderedInsert_of_forall_le
          intro x hx
          rcases List.mem_cons.mp (List.mem_of_mem_filter hx) with rfl | hx'
          · exact hab
          · exact Trans.trans hab (hbt x hx')
        simp [hpa, hins]
      · simp [hpa, List.filter_cons]
    · have hoi : (b :: t).orderedInsert timeLE a = b :: t.orderedInsert timeLE a := by
        simp [List.orderedInsert, hab]
      rw [hoi]
      by_cases hpa : p a <;> by_cases hpb : p b <;>
        simp [List.filter_cons, hpa, hpb, ih ht, List.orderedInsert, hab]

/-- Filtering commutes with the stable sort. -/
theorem filter_insertionSort (p : Transaction → Bool) :
    ∀ l : List Transaction,
      (l.insertionSort timeLE).filter p = (l.filter p).insertionSort timeLE := by
  intro l
  induction l with
  | nil => rfl
  | cons a l ih =>
    have hs : (l.insertionSort timeLE).Sorted timeLE :=
      List.sorted_insertionSort timeLE l
    by_cases hpa : p a <;>
      simp [List.insertionSort, filter_orderedInsert p a _ hs, hpa,
        List.filter_cons, ih]

/-- A currency occurs in the input exactly when its filtered transaction
list is non-empty. -/
theorem mem_map_currency_iff {c : Currency} {l : List Transaction} :
    c ∈ l.map (fun t => t.currency) ↔
      l.filter (fun t => decide (t.currency = c)) ≠ [] := by
  simp only [List.mem_map, Ne, List.filter_eq_nil_iff, decide_eq_true_eq, not_forall]
  constructor
  · rintro ⟨t, ht, rfl⟩
    exact ⟨t, ht, by simp⟩
  · rintro ⟨t, ht, h⟩
    exact ⟨t, ht, not_not.mp h⟩

/-- Stability of the embedded sort: transactions sharing a timestamp keep
their relative input order. -/
theorem filter_unixtime_insertionSort (l : List Transaction) (k : ℕ) :
    (l.insertionSort timeLE).filter (fun t => decide (t.unixtime = k)) =
      l.filter (fun t => decide (t.unixtime = k)) := by
  rw [filter_insertionSort]
  apply List.Sorted.insertionSort_eq
  apply List.pairwise_of_forall_mem_list
  intro x hx y hy
  have hxk : x.unixtime = k := by
    have := List.of_mem_filter hx
    simpa using this
  have hyk : y.unixtime = k := by
    have := List.of_mem_filter hy
    simpa using this
  unfold timeLE
  omega

/-- C2: on a buy `b` and a sell `s` of the same currency with non-negative
amounts, `subtract_sell` returns `delta * (s.rate - b.rate)` for
`delta = min b.amount s.amount`, decreases both amounts by exactly `delta`,
and drives the smaller side to exactly `0`. -/
theorem subtract_sell_delta_spec (b s : Transaction)
    (hb : b.transaction_type = TransactionType.Buy)
    (hs : s.transaction_type = TransactionType.Sell)
    (hc : b.currency = s.currency)
    (hb0 : 0 ≤ b.amount) (hs0 : 0 ≤ s.amount) :
    ∃ b' s', b.subtract_sell s =
        some (min b.amount s.amount * (s.rate - b.rate), b', s') ∧
      b'.amount = b.amount - min b.amount s.amount ∧
      s'.amount = s.amount - min b.amount s.amount ∧
      (b.amount ≤ s.amount → b'.amount = 0) ∧
      (s.amount ≤ b.amount → s'.amount = 0) := by
  obtain ⟨d, b', s', hsub⟩ := subtract_sell_isSome hb hs hc
  obtain ⟨_, _, _, hd, hba, hsa, _, _, _, _, _, _, _, _, _⟩ :=
    subtract_sell_some_spec hsub
  subst hd
  refine ⟨b', s', hsub, hba, hsa, ?_, ?_⟩
  · intro hle
    rw [hba, min_eq_left hle]
    ring
  · intro hle
    rw [hsa, min_eq_right hle]
    ring

/-- Witness for C2 at a concrete buy and sell. -/
theorem subtract_sell_delta_spec_witness :
    ∃ b' s', Transaction.subtract_sell ⟨2, ⟨"BTC"⟩, 10, TransactionType.Buy, 1⟩
        ⟨1, ⟨"BTC"⟩, 15, TransactionType.Sell, 2⟩ =
        some (min (2:ℚ) 1 * (15 - 10), b', s') ∧
      b'.amount = 2 - min (2:ℚ) 1 ∧
      s'.amount = 1 - min (2:ℚ) 1 ∧
      ((2:ℚ) ≤ 1 → b'.amount = 0) ∧
      ((1:ℚ) ≤ 2 → s'.amount = 0) :=
  subtract_sell_delta_spec ⟨2, ⟨"BTC"⟩, 10, TransactionType.Buy, 1⟩
    ⟨1, ⟨"BTC"⟩, 15, TransactionType.Sell, 2⟩ rfl rfl rfl (by norm_num) (by norm_num)

/-- C6: a transaction is exhausted exactly when its amount is below
`ε = 1e-5`; a buy lot reduced to `0.000005` by a match is treated as fully
consumed and popped from the lot queue (the loop returns an empty queue). -/
theorem epsilon_exhaustion :
    (∀ t : Transaction, t.is_exhausted = true ↔ t.amount < 1 / 100000) ∧
    Transaction.subtract_sell ⟨1000005/1000000, ⟨"BTC"⟩, 2, TransactionType.Buy, 1⟩
        ⟨1, ⟨"BTC"⟩, 3, TransactionType.Sell, 2⟩ =
      some (1, ⟨5/1000000, ⟨"BTC"⟩, 2, TransactionType.Buy, 1⟩,
        ⟨0, ⟨"BTC"⟩, 3, TransactionType.Sell, 2⟩) ∧
    processSell 2 [⟨1000005/1000000, ⟨"BTC"⟩, 2, TransactionType.Buy, 1⟩]
        ⟨1, ⟨"BTC"⟩, 3, TransactionType.Sell, 2⟩ = .ok (1, []) := by
  refine ⟨fun t => is_exhausted_iff, ?_, ?_⟩
  · norm_num [Transaction.subtract_sell, min_def]
  · norm_num [processSell, Transaction.subtract_sell, Transaction.is_exhausted, min_def]

/-- C8: `subtract_sell` preserves non-negativity of both operand amounts,
and hence the sell-matching loop keeps every queued lot amount
non-negative. -/
theorem amounts_nonneg_preserved :
    (∀ (b s : Transaction) (d : ℚ) (b' s' : Transaction),
      b.subtract_sell s = some (d, b', s') → 0 ≤ b.amount → 0 ≤ s.amount →
      0 ≤ b'.amount ∧ 0 ≤ s'.amount) ∧
    (∀ (fuel : ℕ) (lots : List Transaction) (sell : Transaction) (g : ℚ)
      (lots' : List Transaction),
      (∀ l ∈ lots, 0 ≤ l.amount) → 0 ≤ sell.amount →
      processSell fuel lots sell = .ok (g, lots') → ∀ l ∈ lots', 0 ≤ l.amount) := by
  constructor
  · intro b s d b' s' hsub hb0 hs0
    obtain ⟨_, _, _, _, hba, hsa, _, _, _, _, _, _, _, _, _⟩ :=
      subtract_sell_some_spec hsub
    constructor
    · rw [hba]
      have := min_le_left b.amount s.amount
      linarith
    · rw [hsa]
      have := min_le_right b.amount s.amount
      linarith
  · exact processSell_nonneg

/-- Witness for C8 at a concrete buy and sell. -/
theorem amounts_nonneg_preserved_witness : 0 ≤ (1:ℚ) ∧ 0 ≤ (0:ℚ) :=
  amounts_nonneg_preserved.1 ⟨2, ⟨"BTC"⟩, 10, TransactionType.Buy, 1⟩
    ⟨1, ⟨"BTC"⟩, 15, TransactionType.Sell, 2⟩ 5
    ⟨1, ⟨"BTC"⟩, 10, TransactionType.Buy, 1⟩
    ⟨0, ⟨"BTC"⟩, 15, TransactionType.Sell, 2⟩
    (by norm_num [Transaction.subtract_sell, min_def]) (by norm_num) (by norm_num)

/-- C9: `subtract_sell` mutates only the `amount` fields; currency, rate,
type and timestamp of both operands are unchanged. -/
theorem subtract_sell_frame (b s : Transaction) (d : ℚ) (b' s' : Transaction)
    (h : b.subtract_sell s = some (d, b', s')) :
    b'.currency = b.currency ∧ b'.rate = b.rate ∧
    b'.transaction_type = b.transaction_type ∧ b'.unixtime = b.unixtime ∧
    s'.currency = s.currency ∧ s'.rate = s.rate ∧
    s'.transaction_type = s.transaction_type ∧ s'.unixtime = s.unixtime := by
  obtain ⟨_, _, _, _, _, _, hb'c, hb'r, hb'ty, hb'u, hs'c, hs'r, hs'ty, hs'u, _⟩ :=
    subtract_sell_some_spec h
  exact ⟨hb'c, hb'r, hb'ty, hb'u, hs'c, hs'r, hs'ty, hs'u⟩

/-- Witness for C9 at a concrete buy and sell. -/
theorem subtract_sell_frame_witness :
    (⟨"BTC"⟩ : Currency) = ⟨"BTC"⟩ ∧ (10:ℚ) = 10 ∧
    TransactionType.Buy = TransactionType.Buy ∧ (1:ℕ) = 1 ∧
    (⟨"BTC"⟩ : Currency) = ⟨"BTC"⟩ ∧ (15:ℚ) = 15 ∧
    TransactionType.Sell = TransactionType.Sell ∧ (2:ℕ) = 2 :=
  subtract_sell_frame ⟨2, ⟨"BTC"⟩, 10, TransactionType.Buy, 1⟩
    ⟨1, ⟨"BTC"⟩, 15, TransactionType.Sell, 2⟩ 5
    ⟨1, ⟨"BTC"⟩, 10, TransactionType.Buy, 1⟩
    ⟨0, ⟨"BTC"⟩, 15, TransactionType.Sell, 2⟩
    (by norm_num [Transaction.subtract_sell, min_def])

/-- C10: on a finite single-currency transaction list with non-negative
amounts, the FIFO matcher terminates, returning either a gain or an
`insufficientLots` error (it never exhausts its iteration bound). -/
theorem single_currency_terminates (c : Currency) (txs : List Transaction)
    (hnn : ∀ t ∈ txs, 0 ≤ t.amount) (hc : ∀ t ∈ txs, t.currency = c) :
    (∃ g, calculate_capital_gains_single_currency txs = .ok g) ∨
    (∃ s, calculate_capital_gains_single_currency txs =
      .error (.insufficientLots s)) := by
  rcases calculate_single_spec c txs hc with ⟨r, hr⟩ | ⟨s, hs, _⟩
  · exact Or.inl ⟨r, hr⟩
  · exact Or.inr ⟨s, hs⟩

/-- Witness for C10 at a concrete single-currency list. -/
theorem single_currency_terminates_witness :
    (∃ g, calculate_capital_gains_single_currency
        [⟨1, ⟨"BTC"⟩, 10, TransactionType.Buy, 1⟩] = .ok g) ∨
    (∃ s, calculate_capital_gains_single_currency
        [⟨1, ⟨"BTC"⟩, 10, TransactionType.Buy, 1⟩] =
      .error (.insufficientLots s)) :=
  single_currency_terminates ⟨"BTC"⟩ [⟨1, ⟨"BTC"⟩, 10, TransactionType.Buy, 1⟩]
    (by intro t ht; rw [List.mem_singleton] at ht; subst ht; norm_num)
    (by intro t ht; rw [List.mem_singleton] at ht; subst ht; rfl)

/-- C7: through the public entry point the defensive panic branches of
`subtract_sell` are unreachable; every run ends in a gain mapping or an
`insufficientLots` error, never an `invariantViolation` (and never fuel
exhaustion). -/
theorem invariant_panics_unreachable (txs : List Transaction) :
    (∃ m, calculate_capital_gains txs = .ok m) ∨
    (∃ s, calculate_capital_gains txs = .error (.insufficientLots s)) := by
  rcases hres : calculate_capital_gains txs with e | m
  · simp only [calculate_capital_gains] at hres
    obtain ⟨c, _, hrun⟩ := aggregate_error_spec _ _ _ _ hres
    have hall : ∀ t ∈ (txs.insertionSort timeLE).filter
        (fun t => decide (t.currency = c)), t.currency = c := by
      intro t ht
      simpa using List.of_mem_filter ht
    rcases calculate_single_spec c _ hall with ⟨r, hr⟩ | ⟨s, hs, _⟩
    · rw [hr] at hrun
      exact Except.noConfusion hrun
    · rw [hs] at hrun
      obtain rfl := Except.error.inj hrun
      exact Or.inr ⟨s, rfl⟩
  · exact Or.inl ⟨m, rfl⟩

/-- C1: when `calculate_capital_gains` succeeds, the returned mapping has
an entry exactly for each currency occurring in the input, and each entry
is the single-currency FIFO gain of that currency's subsequence of the
sorted input; the sort is an ascending stable sort by `unixtime`
(it is sorted, a permutation of the input, and preserves the relative
order of equal-timestamp transactions). -/
theorem calculate_capital_gains_ok_spec (txs : List Transaction)
    (m : Currency → Option ℚ) (h : calculate_capital_gains txs = .ok m)
    (c : Currency) :
    ((m c).isSome ↔ c ∈ txs.map (fun t => t.currency)) ∧
    (∀ g, m c = some g →
      calculate_capital_gains_single_currency
        ((txs.insertionSort timeLE).filter (fun t => decide (t.currency = c))) =
        .ok g) ∧
    (txs.insertionSort timeLE).Sorted timeLE ∧
    (txs.insertionSort timeLE).Perm txs ∧
    (∀ k : ℕ, (txs.insertionSort timeLE).filter (fun t => decide (t.unixtime = k)) =
      txs.filter (fun t => decide (t.unixtime = k))) := by
  simp only [calculate_capital_gains] at h
  have hspec := aggregate_ok_spec _ _ _ _ h c
  have hmem : c ∈ (txs.insertionSort timeLE).map (fun t => t.currency) ↔
      c ∈ txs.map (fun t => t.currency) :=
    ((List.perm_insertionSort timeLE txs).map _).mem_iff
  refine ⟨⟨?_, ?_⟩, ?_, List.sorted_insertionSort timeLE txs,
    List.perm_insertionSort timeLE txs,
    fun k => filter_unixtime_insertionSort txs k⟩
  · intro hsome
    by_contra hc
    have := hspec.2 fun h' => hc (hmem.mp h')
    rw [this] at hsome
    simp at hsome
  · intro hc
    obtain ⟨g, _, hm⟩ := hspec.1 (hmem.mpr hc)
    rw [hm]
    rfl
  · intro g hg
    by_cases hc : c ∈ (txs.insertionSort timeLE).map (fun t => t.currency)
    · obtain ⟨g0, hrun, hm⟩ := hspec.1 hc
      rw [hg] at hm
      obtain rfl : g0 = g := Option.some.inj hm.symm
      exact hrun
    · have := hspec.2 hc
      rw [this] at hg
      exact Option.noConfusion hg

/-- Witness for C1 at a concrete one-transaction input. -/
theorem calculate_capital_gains_ok_spec_witness :
    (((fun c' => if c' = (⟨"BTC"⟩ : Currency) then some (0:ℚ) else none)
        (⟨"BTC"⟩ : Currency)).isSome ↔
      (⟨"BTC"⟩ : Currency) ∈
        ([⟨1, ⟨"BTC"⟩, 10, TransactionType.Buy, 1⟩] : List Transaction).map
          (fun t => t.currency)) ∧
    (∀ g, (fun c' => if c' = (⟨"BTC"⟩ : Currency) then some (0:ℚ) else none)
          (⟨"BTC"⟩ : Currency) = some g →
      calculate_capital_gains_single_currency
        ((([⟨1, ⟨"BTC"⟩, 10, TransactionType.Buy, 1⟩] :
            List Transaction).insertionSort timeLE).filter
          (fun t => decide (t.currency = ⟨"BTC"⟩))) = .ok g) ∧
    (([⟨1, ⟨"BTC"⟩, 10, TransactionType.Buy, 1⟩] :
      List Transaction).insertionSort timeLE).Sorted timeLE ∧
    (([⟨1, ⟨"BTC"⟩, 10, TransactionType.Buy, 1⟩] :
      List Transaction).insertionSort timeLE).Perm
      [⟨1, ⟨"BTC"⟩, 10, TransactionType.Buy, 1⟩] ∧
    (∀ k : ℕ, (([⟨1, ⟨"BTC"⟩, 10, TransactionType.Buy, 1⟩] :
        List Transaction).insertionSort timeLE).filter
        (fun t => decide (t.unixtime = k)) =
      ([⟨1, ⟨"BTC"⟩, 10, TransactionType.Buy, 1⟩] : List Transaction).filter
        (fun t => decide (t.unixtime = k))) :=
  calculate_capital_gains_ok_spec [⟨1, ⟨"BTC"⟩, 10, TransactionType.Buy, 1⟩]
    (fun c' => if c' = (⟨"BTC"⟩ : Currency) then some (0:ℚ) else none)
    (by norm_num [calculate_capital_gains, aggregate,
      calculate_capital_gains_single_currency, fifoFold, List.insertionSort,
      List.orderedInsert, timeLE]) ⟨"BTC"⟩

/-- C3: the aggregator fails exactly when some currency occurring in the
input has, in its time-ordered subsequence, a sell that is still
unexhausted (remaining amount at least `ε = 1e-5`) at a point where the
buy-lot queue is empty; the failure is the `insufficientLots` error and,
the result being an `Except.error`, no partial mapping is returned. -/
theorem calculate_capital_gains_error_iff (txs : List Transaction) :
    (∃ e, calculate_capital_gains txs = .error e) ↔
    (∃ c s, c ∈ txs.map (fun t => t.currency) ∧
      calculate_capital_gains_single_currency
        ((txs.insertionSort timeLE).filter (fun t => decide (t.currency = c))) =
        .error (.insufficientLots s) ∧ 1 / 100000 ≤ s.amount) := by
  have hmem : ∀ c : Currency,
      c ∈ (txs.insertionSort timeLE).map (fun t => t.currency) ↔
        c ∈ txs.map (fun t => t.currency) :=
    fun c => ((List.perm_insertionSort timeLE txs).map _).mem_iff
  constructor
  · rintro ⟨e, he⟩
    simp only [calculate_capital_gains] at he
    obtain ⟨c, hc, hrun⟩ := aggregate_error_spec _ _ _ _ he
    have hall : ∀ t ∈ (txs.insertionSort timeLE).filter
        (fun t => decide (t.currency = c)), t.currency = c := by
      intro t ht
      simpa using List.of_mem_filter ht
    rcases calculate_single_spec c _ hall with ⟨r, hr⟩ | ⟨s, hs, hbound⟩
    · rw [hr] at hrun
      exact Except.noConfusion hrun
    · exact ⟨c, s, (hmem c).mp hc, hs, hbound⟩
  · rintro ⟨c, s, hc, hrun, _⟩
    simp only [calculate_capital_gains]
    exact aggregate_error_exists _ _ _ c ((hmem c).mpr hc) ⟨_, hrun⟩

/-- C4: on Buy 1.0 at rate 10000 (t=1), Buy 1.0 at rate 20000 (t=2),
Sell 1.5 at rate 30000 (t=3), all in one currency, the computation
succeeds mapping that currency to 25000, and the matching loop (invoked by
the calculator with this very queue and fuel) leaves the second buy lot
open with 0.5 units. -/
theorem multi_lot_consumption :
    (calculate_capital_gains
        [⟨1, ⟨"BTC"⟩, 10000, TransactionType.Buy, 1⟩,
          ⟨1, ⟨"BTC"⟩, 20000, TransactionType.Buy, 2⟩,
          ⟨3/2, ⟨"BTC"⟩, 30000, TransactionType.Sell, 3⟩]).map
      (fun m => m ⟨"BTC"⟩) = .ok (some 25000) ∧
    processSell 3
      [⟨1, ⟨"BTC"⟩, 10000, TransactionType.Buy, 1⟩,
        ⟨1, ⟨"BTC"⟩, 20000, TransactionType.Buy, 2⟩]
      ⟨3/2, ⟨"BTC"⟩, 30000, TransactionType.Sell, 3⟩ =
      .ok (25000, [⟨1/2, ⟨"BTC"⟩, 20000, TransactionType.Buy, 2⟩]) := by
  constructor
  · norm_num [calculate_capital_gains, aggregate,
      calculate_capital_gains_single_currency, fifoFold, processSell,
      Transaction.subtract_sell, Transaction.is_exhausted, min_def,
      List.insertionSort, List.orderedInsert, timeLE, Except.map]
  · norm_num [processSell, Transaction.subtract_sell, Transaction.is_exhausted,
      min_def]

/-- C5: the gain computed for a currency depends only on that currency's
subsequence of the input; transactions of other currencies never affect
it, for any interleaving by timestamp. -/
theorem currency_independence (txs1 txs2 : List Transaction) (B : Currency)
    (m1 m2 : Currency → Option ℚ)
    (hB : txs1.filter (fun t => decide (t.currency = B)) =
      txs2.filter (fun t => decide (t.currency = B)))
    (h1 : calculate_capital_gains txs1 = .ok m1)
    (h2 : calculate_capital_gains txs2 = .ok m2) :
    m1 B = m2 B := by
  simp only [calculate_capital_gains] at h1 h2
  have hs1 := aggregate_ok_spec _ _ _ _ h1 B
  have hs2 := aggregate_ok_spec _ _ _ _ h2 B
  have hfilter : (txs1.insertionSort timeLE).filter
      (fun t => decide (t.currency = B)) =
      (txs2.insertionSort timeLE).filter (fun t => decide (t.currency = B)) := by
    rw [filter_insertionSort, filter_insertionSort, hB]
  have hmm1 : B ∈ (txs1.insertionSort timeLE).map (fun t => t.currency) ↔
      B ∈ txs1.map (fun t => t.currency) :=
    ((List.perm_insertionSort timeLE txs1).map _).mem_iff
  have hmm2 : B ∈ (txs2.insertionSort timeLE).map (fun t => t.currency) ↔
      B ∈ txs2.map (fun t => t.currency) :=
    ((List.perm_insertionSort timeLE txs2).map _).mem_iff
  by_cases hc : B ∈ txs1.map (fun t => t.currency)
  · have hc2 : B ∈ txs2.map (fun t => t.currency) := by
      rw [mem_map_currency_iff] at hc ⊢
      rw [← hB]
      exact hc
    obtain ⟨g1, hrun1, hm1⟩ := hs1.1 (hmm1.mpr hc)
    obtain ⟨g2, hrun2, hm2⟩ := hs2.1 (hmm2.mpr hc2)
    rw [hfilter, hrun2] at hrun1
    obtain rfl : g2 = g1 := Except.ok.inj hrun1
    rw [hm1, hm2]
  · have hc2 : B ∉ txs2.map (fun t => t.currency) := by
      rw [mem_map_currency_iff] at hc ⊢
      rw [← hB]
      exact hc
    rw [hs1.2 fun h' => hc (hmm1.mp h'), hs2.2 fun h' => hc2 (hmm2.mp h')]

/-- Witness for C5: two inputs sharing the BTC subsequence, one with an
extra ETH transaction, yield the same BTC entry. -/
theorem currency_independence_witness :
    (fun c' => if c' = (⟨"BTC"⟩ : Currency) then some (0:ℚ) else none)
      (⟨"BTC"⟩ : Currency) =
    (fun c' => if c' = (⟨"BTC"⟩ : Currency) then some (0:ℚ)
      else if c' = (⟨"ETH"⟩ : Currency) then some (0:ℚ) else none)
      (⟨"BTC"⟩ : Currency) :=
  currency_independence [⟨1, ⟨"BTC"⟩, 10, TransactionType.Buy, 1⟩]
    [⟨1, ⟨"ETH"⟩, 5, TransactionType.Buy, 0⟩,
      ⟨1, ⟨"BTC"⟩, 10, TransactionType.Buy, 1⟩] ⟨"BTC"⟩
    (fun c' => if c' = (⟨"BTC"⟩ : Currency) then some (0:ℚ) else none)
    (fun c' => if c' = (⟨"BTC"⟩ : Currency) then some (0:ℚ)
      else if c' = (⟨"ETH"⟩ : Currency) then some (0:ℚ) else none)
    (by simp [List.filter_cons])
    (by norm_num [calculate_capital_gains, aggregate,
      calculate_capital_gains_single_currency, fifoFold, List.insertionSort,
      List.orderedInsert, timeLE])
    (by norm_num [calculate_capital_gains, aggregate,
      calculate_capital_gains_single_currency, fifoFold, List.insertionSort,
      List.orderedInsert, timeLE])

end AusCgt
